import Mathlib

/-!
Formal model of the Stock Hunter support-level analysis.

The repository's core logic lives in the request handler `analyze_stock`:
a fractal-low scan over the weekly price series, a greedy 5 percent
clustering of the detected candidate lows, and a plan builder that filters
the clustered levels below the current price, ranks them, keeps at most
three and decorates them with weight and percentage fields.

Floating-point arithmetic of the original program is modelled with exact
rational numbers; Python's `round` (banker's rounding, ties to even) is
modelled by `pyRound`.  Python's stable `list.sort` is modelled by
`List.insertionSort` (stable in the same sense); `reverse=True` becomes
sorting by the flipped comparison, which matches Python's documented
behavior for stable descending sorts.
-/

attribute [local semireducible] Rat.add Rat.mul Rat.inv Rat.sub Rat.ofScientific

/-- One weekly price observation: the `High`, `Low` and `Close` columns of
one row of the fetched data frame. -/
structure PricePoint where
  high : ℚ
  low : ℚ
  close : ℚ
deriving DecidableEq

/-- The `order, price, weight_percent, discount_from_high_pct,
gap_from_current_pct` record the handler appends to `strategic_plan`. -/
structure BuyLevel where
  order : ℕ
  price : ℚ
  weight_percent : ℤ
  discount_from_high_pct : ℚ
  gap_from_current_pct : ℚ
deriving DecidableEq

/-- Python's built-in `round` on an exact rational: nearest integer with
ties going to the even integer. -/
def pyRound (q : ℚ) : ℤ :=
  if q - ⌊q⌋ < 1 / 2 then ⌊q⌋
  else if 1 / 2 < q - ⌊q⌋ then ⌊q⌋ + 1
  else if ⌊q⌋ % 2 = 0 then ⌊q⌋ else ⌊q⌋ + 1

/-- Python's `round(x, 2)`: round to two decimal places, ties to even. -/
def round2 (q : ℚ) : ℚ := (pyRound (q * 100) : ℚ) / 100

/-- `df['Low'].iloc[i]`: the low of the i-th point (a default for an
out-of-range index, which the scan never uses). -/
def lowAt (s : List PricePoint) (i : ℕ) : ℚ := (s.getD i ⟨0, 0, 0⟩).low

/-- The fractal-low test of `analyze_stock`: `low_val` is strictly below
the lows at offsets -1, -2, +1 and +2 (in the source's order). -/
def isFractalLow (s : List PricePoint) (i : ℕ) : Bool :=
  decide (lowAt s i < lowAt s (i - 1)) && decide (lowAt s i < lowAt s (i - 2)) &&
    decide (lowAt s i < lowAt s (i + 1)) && decide (lowAt s i < lowAt s (i + 2))

/-- The candidate lows appended to `levels`: the loop
`for i in range(2, len(df)-2)` guarded by `if len(df) > 5`. -/
def fractalCandidates (s : List PricePoint) : List ℚ :=
  if 5 < s.length then
    (List.range' 2 (s.length - 4)).filterMap fun i =>
      if isFractalLow s i then some (lowAt s i) else none
  else []

/-- The `while levels:` consolidation loop: pop the smallest remaining
value as `base`, absorb every remaining value `x` with `x <= base * 1.05`
into its group, keep the rest, and emit `(mean, size)` per group.  The
fuel argument makes the recursion structural; `clusterSorted` supplies
fuel equal to the list length, which is never exhausted. -/
def clusterAux : ℕ → List ℚ → List (ℚ × ℕ)
  | _, [] => []
  | 0, _ :: _ => []
  | fuel + 1, base :: rest =>
    let group := base :: rest.filter fun x => decide (x ≤ base * 1.05)
    (group.sum / (group.length : ℚ), group.length) ::
      clusterAux fuel (rest.filter fun x => !decide (x ≤ base * 1.05))

/-- The consolidation loop run on an already sorted candidate list. -/
def clusterSorted (l : List ℚ) : List (ℚ × ℕ) := clusterAux l.length l

/-- Ghost companion of `clusterAux` returning the raw groups themselves
instead of their `(mean, size)` summaries. -/
def clustersAux : ℕ → List ℚ → List (List ℚ)
  | _, [] => []
  | 0, _ :: _ => []
  | fuel + 1, base :: rest =>
    (base :: rest.filter fun x => decide (x ≤ base * 1.05)) ::
      clustersAux fuel (rest.filter fun x => !decide (x ≤ base * 1.05))

/-- The groups the consolidation loop forms on a sorted list. -/
def clustersOf (l : List ℚ) : List (List ℚ) := clustersAux l.length l

/-- `levels.sort()`: Python's stable ascending sort of the candidate list. -/
def sortedCandidates (cands : List ℚ) : List ℚ :=
  List.insertionSort (fun a b : ℚ => a ≤ b) cands

/-- `levels.sort()` followed by the consolidation loop. -/
def clusterLevels (cands : List ℚ) : List (ℚ × ℕ) :=
  clusterSorted (sortedCandidates cands)

/-- The level detector: fractal scan then clustering, producing the
`consolidated` list of `(average_price, strength)` pairs. -/
def detect_levels (series : List PricePoint) : List (ℚ × ℕ) :=
  clusterLevels (fractalCandidates series)

/-- The status message of the empty-plan branch (in the source a Thai
sentence reading "current price is the lowest in 5 years, or no support
level found"). -/
def STATUS_NOT_FOUND : String := "ราคาปัจจุบันต่ำที่สุดในรอบ 5 ปี หรือไม่พบแนวรับ"

/-- The status message of the non-empty-plan branch. -/
def STATUS_FOUND : String := "Found Strategic Levels"

/-- `waiting = [l for l in consolidated if l[0] < current_price]`. -/
def waiting (levels : List (ℚ × ℕ)) (current_price : ℚ) : List (ℚ × ℕ) :=
  levels.filter fun l => decide (l.1 < current_price)

/-- `waiting.sort(key=lambda x: x[0], reverse=True)`: stable sort by
average price, descending. -/
def sortedWaiting (levels : List (ℚ × ℕ)) (current_price : ℚ) : List (ℚ × ℕ) :=
  List.insertionSort (fun a b : ℚ × ℕ => b.1 ≤ a.1) (waiting levels current_price)

/-- `top_3 = waiting[:3]` after the descending sort. -/
def top_3 (levels : List (ℚ × ℕ)) (current_price : ℚ) : List (ℚ × ℕ) :=
  (sortedWaiting levels current_price).take 3

/-- The body of the `for i, (price, count) in enumerate(top_3)` loop:
one `BuyLevel` from rank `i` (0-based here, `order = i + 1`). -/
def mkBuyLevel (one_year_high current_price : ℚ) (total_strength : ℕ) (i : ℕ)
    (pc : ℚ × ℕ) : BuyLevel :=
  { order := i + 1
    price := round2 pc.1
    weight_percent := pyRound ((pc.2 : ℚ) / (total_strength : ℚ) * 100)
    discount_from_high_pct := round2 ((one_year_high - pc.1) / one_year_high * 100)
    gap_from_current_pct := round2 ((current_price - pc.1) / current_price * 100) }

/-- The plan builder: filter to levels below the current price, sort
descending, keep at most three, and build the status and the plan. -/
def build_plan (levels : List (ℚ × ℕ)) (current_price one_year_high : ℚ) :
    String × List BuyLevel :=
  let t3 := top_3 levels current_price
  if t3.isEmpty then (STATUS_NOT_FOUND, [])
  else
    (STATUS_FOUND,
      t3.enum.map fun p =>
        mkBuyLevel one_year_high current_price ((t3.map Prod.snd).sum) p.1 p.2)

/-- Division that faults on a zero divisor, as Python's `/` raises
`ZeroDivisionError`. -/
def divE (a b : ℚ) : Option ℚ := if b = 0 then none else some (a / b)

/-- `mkBuyLevel` with every division checked. -/
def mkBuyLevelE (one_year_high current_price : ℚ) (total_strength : ℕ) (i : ℕ)
    (pc : ℚ × ℕ) : Option BuyLevel := do
  let w ← divE (pc.2 : ℚ) (total_strength : ℚ)
  let d ← divE (one_year_high - pc.1) one_year_high
  let g ← divE (current_price - pc.1) current_price
  some { order := i + 1
         price := round2 pc.1
         weight_percent := pyRound (w * 100)
         discount_from_high_pct := round2 (d * 100)
         gap_from_current_pct := round2 (g * 100) }

/-- The plan builder with every division checked: `none` models an
uncaught `ZeroDivisionError`. -/
def build_planE (levels : List (ℚ × ℕ)) (current_price one_year_high : ℚ) :
    Option (String × List BuyLevel) :=
  let t3 := top_3 levels current_price
  if t3.isEmpty then some (STATUS_NOT_FOUND, [])
  else do
    let plan ← t3.enum.mapM fun p =>
      mkBuyLevelE one_year_high current_price ((t3.map Prod.snd).sum) p.1 p.2
    some (STATUS_FOUND, plan)

/-- The whole core pipeline of `analyze_stock`: detector then plan builder. -/
def runAnalysis (series : List PricePoint) (current_price one_year_high : ℚ) :
    String × List BuyLevel :=
  build_plan (detect_levels series) current_price one_year_high

/-- Modelled from the spec's fractal-scan sentence: index `i` qualifies
when it lies in `[2, len-3]` (inclusive, zero-based) and its low is
strictly less than the lows at `i-2, i-1, i+1, i+2`. -/
def isSpecCandidate (s : List PricePoint) (i : ℕ) : Prop :=
  2 ≤ i ∧ i ≤ s.length - 3 ∧
    lowAt s i < lowAt s (i - 2) ∧ lowAt s i < lowAt s (i - 1) ∧
    lowAt s i < lowAt s (i + 1) ∧ lowAt s i < lowAt s (i + 2)

instance (s : List PricePoint) (i : ℕ) : Decidable (isSpecCandidate s i) := by
  unfold isSpecCandidate
  exact inferInstance

/-- Modelled from the spec's fractal-scan sentence, word by word: among all
indices `i`, exactly the qualifying ones contribute `series[i].low` as a
candidate. -/
def specFractalCandidates (s : List PricePoint) : List ℚ :=
  (List.range s.length).filterMap fun i =>
    if isSpecCandidate s i then some (lowAt s i) else none

/-! ### Concrete inputs used by the closed statements below -/

/-- A price point whose three fields all carry the same value; detection
only reads the low. -/
def mkPt (l : ℚ) : PricePoint := ⟨l, l, l⟩

/-- The spec's own worked example series of lows. -/
def wSeries : List PricePoint := [10, 9, 8, 9, 10, 9, 8, 9, 10].map mkPt

/-- A series too short for the fractal scan. -/
def shortSeries : List PricePoint := [3, 2, 1].map mkPt

/-- A series whose two clusters have means 52/125 and 53/125, both of
which round to 0.42 at two decimals. -/
def exSeries : List PricePoint :=
  [1, 1, 2/5, 1, 1, 21/50, 1, 1, 21/50, 1, 1, 21/50, 1, 1, 21/50, 1, 1, 53/125, 1, 1].map mkPt

/-- Sanity check, the spec's worked detector example: lows
`[10,9,8,9,10,9,8,9,10]` give two fractal candidates of value 8, which
cluster into a single level of mean 8 and strength 2. -/
theorem sanity_detector_example :
    fractalCandidates ([10, 9, 8, 9, 10, 9, 8, 9, 10].map mkPt) = [8, 8] ∧
    clusterLevels [8, 8] = [(8, 2)] := by
  decide

/-- Sanity check, the spec's worked plan example: levels
`[(90,3),(70,1),(95,2)]` at current price 100 give weights `[33, 50, 17]`. -/
theorem sanity_plan_example :
    (build_plan [(90, 3), (70, 1), (95, 2)] 100 100).2.map
      (fun b => b.weight_percent) = [33, 50, 17] := by
  decide

/-! ### Basic facts about the consolidation loop -/

theorem clustersAux_congr : ∀ (f1 f2 : ℕ) (l : List ℚ), l.length ≤ f1 → l.length ≤ f2 →
    clustersAux f1 l = clustersAux f2 l := by
  intro f1
  induction f1 with
  | zero =>
    intro f2 l h1 h2
    cases l with
    | nil => cases f2 <;> simp [clustersAux]
    | cons b rest => simp at h1
  | succ n ih =>
    intro f2 l h1 h2
    cases l with
    | nil => cases f2 <;> simp [clustersAux]
    | cons b rest =>
      cases f2 with
      | zero => simp at h2
      | succ m =>
        simp only [clustersAux]
        congr 1
        have hf := List.length_filter_le (fun x => !decide (x ≤ b * 1.05)) rest
        simp only [List.length_cons] at h1 h2
        exact ih m _ (by omega) (by omega)

theorem clustersOf_cons (b : ℚ) (rest : List ℚ) :
    clustersOf (b :: rest) =
      (b :: rest.filter fun x => decide (x ≤ b * 1.05)) ::
        clustersOf (rest.filter fun x => !decide (x ≤ b * 1.05)) := by
  show clustersAux (rest.length + 1) (b :: rest) = _
  simp only [clustersAux]
  congr 1
  exact clustersAux_congr rest.length _ _ (List.length_filter_le _ _) le_rfl

theorem clusterAux_eq_map (fuel : ℕ) : ∀ l : List ℚ,
    clusterAux fuel l =
      (clustersAux fuel l).map fun g => (g.sum / (g.length : ℚ), g.length) := by
  induction fuel with
  | zero => intro l; cases l <;> simp [clusterAux, clustersAux]
  | succ n ih => intro l; cases l with
    | nil => simp [clusterAux, clustersAux]
    | cons b rest => simp [clusterAux, clustersAux, ih]

theorem clusterSorted_eq_map (l : List ℚ) :
    clusterSorted l = (clustersOf l).map fun g => (g.sum / (g.length : ℚ), g.length) :=
  clusterAux_eq_map l.length l

theorem mem_of_mem_clustersAux : ∀ (fuel : ℕ) (l : List ℚ) (g : List ℚ) (x : ℚ),
    g ∈ clustersAux fuel l → x ∈ g → x ∈ l := by
  intro fuel
  induction fuel with
  | zero => intro l g x hg; cases l <;> simp [clustersAux] at hg
  | succ n ih =>
    intro l g x hg hx
    cases l with
    | nil => simp [clustersAux] at hg
    | cons b rest =>
      simp only [clustersAux, List.mem_cons] at hg
      rcases hg with rfl | hg
      · rcases List.mem_cons.mp hx with rfl | hx
        · exact List.mem_cons_self _ _
        · exact List.mem_cons_of_mem _ (List.mem_of_mem_filter hx)
      · exact List.mem_cons_of_mem _
          (List.mem_of_mem_filter (ih _ g x hg hx))

theorem clustersAux_shape : ∀ (fuel : ℕ) (l : List ℚ) (g : List ℚ),
    g ∈ clustersAux fuel l → ∃ a t, g = a :: t ∧ ∀ x ∈ t, x ≤ a * 1.05 := by
  intro fuel
  induction fuel with
  | zero => intro l g hg; cases l <;> simp [clustersAux] at hg
  | succ n ih =>
    intro l g hg
    cases l with
    | nil => simp [clustersAux] at hg
    | cons b rest =>
      simp only [clustersAux, List.mem_cons] at hg
      rcases hg with rfl | hg
      · refine ⟨b, _, rfl, fun x hx => ?_⟩
        have := (List.mem_filter.mp hx).2
        simpa using this
      · exact ih _ g hg

theorem clustersAux_anchor_min : ∀ (fuel : ℕ) (l : List ℚ),
    l.Pairwise (fun a b => a ≤ b) → ∀ g ∈ clustersAux fuel l, ∀ x ∈ g, g.headD 0 ≤ x := by
  intro fuel
  induction fuel with
  | zero => intro l _ g hg; cases l <;> simp [clustersAux] at hg
  | succ n ih =>
    intro l hl g hg x hx
    cases l with
    | nil => simp [clustersAux] at hg
    | cons b rest =>
      have hble : ∀ y ∈ rest, b ≤ y := (List.pairwise_cons.mp hl).1
      have hrest : rest.Pairwise (fun a b => a ≤ b) := (List.pairwise_cons.mp hl).2
      simp only [clustersAux, List.mem_cons] at hg
      rcases hg with rfl | hg
      · simp only [List.headD_cons]
        rcases List.mem_cons.mp hx with rfl | hx
        · exact le_rfl
        · exact hble x (List.mem_of_mem_filter hx)
      · exact ih _ (hrest.sublist (List.filter_sublist rest)) g hg x hx

theorem clustersAux_separated : ∀ (fuel : ℕ) (l : List ℚ),
    (clustersAux fuel l).Pairwise (fun g1 g2 => ∀ x ∈ g2, g1.headD 0 * 1.05 < x) := by
  intro fuel
  induction fuel with
  | zero => intro l; cases l <;> simp [clustersAux]
  | succ n ih =>
    intro l
    cases l with
    | nil => simp [clustersAux]
    | cons b rest =>
      simp only [clustersAux]
      refine List.pairwise_cons.mpr ⟨?_, ih _⟩
      intro g hg x hx
      have hxk := mem_of_mem_clustersAux _ _ _ _ hg hx
      have := (List.mem_filter.mp hxk).2
      simp only [List.headD_cons]
      simp only [Bool.not_eq_true', decide_eq_false_iff_not, not_le] at this
      exact this

theorem clustersAux_flatten_perm : ∀ (fuel : ℕ) (l : List ℚ), l.length ≤ fuel →
    (clustersAux fuel l).flatten.Perm l := by
  intro fuel
  induction fuel with
  | zero =>
    intro l h
    cases l with
    | nil => simp [clustersAux]
    | cons b rest => simp at h
  | succ n ih =>
    intro l h
    cases l with
    | nil => simp [clustersAux]
    | cons b rest =>
      simp only [clustersAux, List.flatten_cons]
      have hlen : (rest.filter fun x => !decide (x ≤ b * 1.05)).length ≤ n := by
        have := List.length_filter_le (fun x => !decide (x ≤ b * 1.05)) rest
        simp only [List.length_cons] at h
        omega
      have hperm := ih _ hlen
      exact List.Perm.cons b
        ((List.Perm.append_left _ hperm).trans
          (List.filter_append_perm (fun x => decide (x ≤ b * 1.05)) rest))

theorem clustersOf_flatten_perm (l : List ℚ) : (clustersOf l).flatten.Perm l :=
  clustersAux_flatten_perm l.length l le_rfl

/-! ### Means of nonempty lists under pointwise bounds -/

theorem list_sum_gt_mul (c : ℚ) (g : List ℚ) (hne : g ≠ []) (h : ∀ x ∈ g, c < x) :
    c * g.length < g.sum := by
  induction g with
  | nil => exact absurd rfl hne
  | cons x t ih =>
    rcases eq_or_ne t [] with rfl | ht
    · simpa using h x (List.mem_cons_self _ _)
    · have h1 := ih ht fun z hz => h z (List.mem_cons_of_mem _ hz)
      have h2 := h x (List.mem_cons_self _ _)
      simp only [List.length_cons, List.sum_cons]
      push_cast
      linarith

theorem mean_gt_of_forall_gt (c : ℚ) (g : List ℚ) (hne : g ≠ []) (h : ∀ x ∈ g, c < x) :
    c < g.sum / (g.length : ℚ) := by
  have hlen : 0 < (g.length : ℚ) := by
    have := List.length_pos.mpr hne
    exact_mod_cast this
  exact (lt_div_iff₀ hlen).mpr (list_sum_gt_mul c g hne h)

theorem mean_le_of_forall_le (u : ℚ) (g : List ℚ) (hne : g ≠ []) (h : ∀ x ∈ g, x ≤ u) :
    g.sum / (g.length : ℚ) ≤ u := by
  have hlen : 0 < (g.length : ℚ) := by
    have := List.length_pos.mpr hne
    exact_mod_cast this
  have hs : g.sum ≤ g.length • u := List.sum_le_card_nsmul g u h
  rw [nsmul_eq_mul] at hs
  exact (div_le_iff₀ hlen).mpr (by linarith)

theorem mean_ge_of_forall_ge (c : ℚ) (g : List ℚ) (hne : g ≠ []) (h : ∀ x ∈ g, c ≤ x) :
    c ≤ g.sum / (g.length : ℚ) := by
  have hlen : 0 < (g.length : ℚ) := by
    have := List.length_pos.mpr hne
    exact_mod_cast this
  have hs : g.length • c ≤ g.sum := List.card_nsmul_le_sum g c h
  rw [nsmul_eq_mul] at hs
  exact (le_div_iff₀ hlen).mpr (by linarith)

/-! ### Means produced by the consolidation loop -/

theorem clusterAux_mean_gt : ∀ (fuel : ℕ) (l : List ℚ) (c : ℚ),
    (∀ x ∈ l, c < x) → ∀ p ∈ clusterAux fuel l, c < p.1 := by
  intro fuel
  induction fuel with
  | zero => intro l c _ p hp; cases l <;> simp [clusterAux] at hp
  | succ n ih =>
    intro l c hl p hp
    cases l with
    | nil => simp [clusterAux] at hp
    | cons b rest =>
      simp only [clusterAux, List.mem_cons] at hp
      rcases hp with rfl | hp
      · refine mean_gt_of_forall_gt c _ (by simp) fun x hx => ?_
        rcases List.mem_cons.mp hx with rfl | hx
        · exact hl x (List.mem_cons_self _ _)
        · exact hl x (List.mem_cons_of_mem _ (List.mem_of_mem_filter hx))
      · exact ih _ c (fun x hx => hl x (List.mem_cons_of_mem _ (List.mem_of_mem_filter hx))) p hp

theorem clusterAux_strength_pos : ∀ (fuel : ℕ) (l : List ℚ) (p : ℚ × ℕ),
    p ∈ clusterAux fuel l → 0 < p.2 := by
  intro fuel
  induction fuel with
  | zero => intro l p hp; cases l <;> simp [clusterAux] at hp
  | succ n ih =>
    intro l p hp
    cases l with
    | nil => simp [clusterAux] at hp
    | cons b rest =>
      simp only [clusterAux, List.mem_cons] at hp
      rcases hp with rfl | hp
      · simp
      · exact ih _ p hp

theorem clusterAux_means_pairwise : ∀ (fuel : ℕ) (l : List ℚ), (∀ x ∈ l, 0 < x) →
    (clusterAux fuel l).Pairwise (fun p q => p.1 < q.1) := by
  intro fuel
  induction fuel with
  | zero => intro l _; cases l <;> simp [clusterAux]
  | succ n ih =>
    intro l hl
    cases l with
    | nil => simp [clusterAux]
    | cons b rest =>
      have hk : ∀ x ∈ rest.filter fun x => !decide (x ≤ b * 1.05), 0 < x :=
        fun x hx => hl x (List.mem_cons_of_mem _ (List.mem_of_mem_filter hx))
      simp only [clusterAux]
      refine List.pairwise_cons.mpr ⟨?_, ih _ hk⟩
      intro q hq
      have hb : 0 < b := hl b (List.mem_cons_self _ _)
      have hub : (b :: rest.filter fun x => decide (x ≤ b * 1.05)).sum /
          (((b :: rest.filter fun x => decide (x ≤ b * 1.05)).length : ℕ) : ℚ) ≤ b * 1.05 := by
        refine mean_le_of_forall_le _ _ (by simp) fun x hx => ?_
        rcases List.mem_cons.mp hx with rfl | hx
        · nlinarith
        · have := (List.mem_filter.mp hx).2
          simpa using this
      have hgt : b * 1.05 < q.1 := by
        refine clusterAux_mean_gt n _ (b * 1.05) (fun x hx => ?_) q hq
        have := (List.mem_filter.mp hx).2
        simp only [Bool.not_eq_true', decide_eq_false_iff_not, not_le] at this
        exact this
      exact lt_of_le_of_lt hub hgt

/-! ### Facts about Python rounding -/

theorem pyRound_ge_floor (q : ℚ) : ⌊q⌋ ≤ pyRound q := by
  unfold pyRound
  split_ifs <;> omega

theorem pyRound_le_floor_add_one (q : ℚ) : pyRound q ≤ ⌊q⌋ + 1 := by
  unfold pyRound
  split_ifs <;> omega

theorem abs_pyRound_sub_le (q : ℚ) : |(pyRound q : ℚ) - q| ≤ 1 / 2 := by
  have h1 := Int.floor_le q
  have h2 := Int.lt_floor_add_one q
  unfold pyRound
  split_ifs with ha hb <;> rw [abs_le] <;> push_cast <;> constructor <;> linarith

theorem pyRound_nonneg (q : ℚ) (h : 0 ≤ q) : 0 ≤ pyRound q := by
  have := pyRound_ge_floor q
  have hf : 0 ≤ ⌊q⌋ := Int.floor_nonneg.mpr h
  omega

theorem pyRound_mono {x y : ℚ} (h : x ≤ y) : pyRound x ≤ pyRound y := by
  have hf : ⌊x⌋ ≤ ⌊y⌋ := Int.floor_le_floor h
  rcases lt_or_eq_of_le hf with hlt | heq
  · have h1 := pyRound_le_floor_add_one x
    have h2 := pyRound_ge_floor y
    omega
  · have hxy : x - ⌊x⌋ ≤ y - ⌊y⌋ := by
      rw [← heq]
      linarith
    unfold pyRound
    rw [heq] at hxy ⊢
    split_ifs with a1 a2 a3 b1 b2 b3 <;> first | omega | (exfalso; push_neg at *; linarith)

theorem round2_mono {x y : ℚ} (h : x ≤ y) : round2 x ≤ round2 y := by
  have hm : pyRound (x * 100) ≤ pyRound (y * 100) := pyRound_mono (by linarith)
  have hc : (pyRound (x * 100) : ℚ) ≤ (pyRound (y * 100) : ℚ) := by exact_mod_cast hm
  unfold round2
  linarith

/-! ### The fractal scan matches its specification -/

theorem filterMap_congr_mem {α β : Type} (f g : α → Option β) :
    ∀ l : List α, (∀ a ∈ l, f a = g a) → l.filterMap f = l.filterMap g := by
  intro l
  induction l with
  | nil => intro _; rfl
  | cons a t ih =>
    intro h
    rw [List.filterMap_cons, List.filterMap_cons, h a (List.mem_cons_self _ _),
      ih fun b hb => h b (List.mem_cons_of_mem _ hb)]

theorem filterMap_eq_nil_of_none {α β : Type} (f : α → Option β) :
    ∀ l : List α, (∀ a ∈ l, f a = none) → l.filterMap f = [] := by
  intro l
  induction l with
  | nil => intro _; rfl
  | cons a t ih =>
    intro h
    rw [List.filterMap_cons, h a (List.mem_cons_self _ _),
      ih fun b hb => h b (List.mem_cons_of_mem _ hb)]

theorem range_split (n : ℕ) (h : 5 < n) :
    List.range n = List.range' 0 2 ++ (List.range' 2 (n - 4) ++ List.range' (n - 2) 2) := by
  have e2 := List.range'_append 2 (n - 4) 2 1
  rw [one_mul, show 2 + (n - 4) = n - 2 by omega] at e2
  have e1 := List.range'_append 0 2 (n - 2) 1
  rw [one_mul, show (0 : ℕ) + 2 = 2 by omega, show n - 2 + 2 = n by omega] at e1
  rw [List.range_eq_range', ← e1, e2]

theorem fractalCandidates_eq_spec (s : List PricePoint) (h : 5 < s.length) :
    fractalCandidates s = specFractalCandidates s := by
  unfold fractalCandidates specFractalCandidates
  rw [if_pos h, range_split s.length h, List.filterMap_append, List.filterMap_append]
  rw [filterMap_eq_nil_of_none _ (List.range' 0 2) ?pre,
    filterMap_eq_nil_of_none _ (List.range' (s.length - 2) 2) ?suf]
  case pre =>
    intro i hi
    have : i < 2 := by
      rcases List.mem_range'.mp hi with ⟨j, hj, rfl⟩
      omega
    exact if_neg fun hc => absurd hc.1 (by omega)
  case suf =>
    intro i hi
    have : s.length - 2 ≤ i := by
      rcases List.mem_range'.mp hi with ⟨j, hj, rfl⟩
      omega
    exact if_neg fun hc => by
      have h2 := hc.2.1
      omega
  rw [List.nil_append, List.append_nil]
  refine filterMap_congr_mem _ _ _ fun i hi => ?_
  have hb : 2 ≤ i ∧ i < s.length - 2 := by
    rcases List.mem_range'.mp hi with ⟨j, hj, rfl⟩
    omega
  by_cases hc : isSpecCandidate s i
  · rw [if_pos ?_, if_pos hc]
    obtain ⟨_, _, c2, c1, d1, d2⟩ := hc
    unfold isFractalLow
    simp only [Bool.and_eq_true, decide_eq_true_eq]
    exact ⟨⟨⟨c1, c2⟩, d1⟩, d2⟩
  · rw [if_neg ?_, if_neg hc]
    intro hb2
    apply hc
    unfold isFractalLow at hb2
    simp only [Bool.and_eq_true, decide_eq_true_eq] at hb2
    exact ⟨hb.1, by omega, hb2.1.1.2, hb2.1.1.1, hb2.1.2, hb2.2⟩

/-! ### Plan builder branches and membership -/

theorem build_plan_of_empty {levels : List (ℚ × ℕ)} {cur yh : ℚ}
    (h : top_3 levels cur = []) : build_plan levels cur yh = (STATUS_NOT_FOUND, []) := by
  simp [build_plan, h]

theorem build_plan_of_found {levels : List (ℚ × ℕ)} {cur yh : ℚ}
    (h : top_3 levels cur ≠ []) :
    build_plan levels cur yh =
      (STATUS_FOUND, (top_3 levels cur).enum.map fun p =>
        mkBuyLevel yh cur (((top_3 levels cur).map Prod.snd).sum) p.1 p.2) := by
  simp [build_plan, h]

theorem plan_length (levels : List (ℚ × ℕ)) (cur yh : ℚ) :
    (build_plan levels cur yh).2.length = (top_3 levels cur).length := by
  rcases eq_or_ne (top_3 levels cur) [] with h | h
  · rw [build_plan_of_empty h, h]
    rfl
  · rw [build_plan_of_found h]
    simp [List.enum_length]

theorem mem_top_3 {levels : List (ℚ × ℕ)} {cur : ℚ} {p : ℚ × ℕ}
    (hp : p ∈ top_3 levels cur) : p ∈ levels ∧ p.1 < cur := by
  have h1 : p ∈ sortedWaiting levels cur := List.mem_of_mem_take hp
  have h2 : p ∈ waiting levels cur := (List.perm_insertionSort _ _).mem_iff.mp h1
  have h3 := List.mem_filter.mp h2
  exact ⟨h3.1, by simpa using h3.2⟩

theorem sortedWaiting_sorted (levels : List (ℚ × ℕ)) (cur : ℚ) :
    (sortedWaiting levels cur).Pairwise fun a b => b.1 ≤ a.1 := by
  haveI : IsTotal (ℚ × ℕ) (fun a b => b.1 ≤ a.1) := ⟨fun a b => le_total b.1 a.1⟩
  haveI : IsTrans (ℚ × ℕ) (fun a b => b.1 ≤ a.1) := ⟨fun _ _ _ h1 h2 => le_trans h2 h1⟩
  exact List.sorted_insertionSort _ _

theorem sortedCandidates_sorted (cands : List ℚ) :
    (sortedCandidates cands).Pairwise fun a b : ℚ => a ≤ b := by
  haveI : IsTotal ℚ (fun a b : ℚ => a ≤ b) := ⟨le_total⟩
  haveI : IsTrans ℚ (fun a b : ℚ => a ≤ b) := ⟨fun _ _ _ => le_trans⟩
  exact List.sorted_insertionSort _ _

/-! ### Positivity transfer through the pipeline -/

theorem fractalCandidates_pos {series : List PricePoint}
    (hpos : ∀ pt ∈ series, 0 < pt.low) : ∀ x ∈ fractalCandidates series, 0 < x := by
  intro x hx
  unfold fractalCandidates at hx
  split_ifs at hx with h5
  · obtain ⟨i, hi, hxi⟩ := List.mem_filterMap.mp hx
    have hilen : i < series.length := by
      rcases List.mem_range'.mp hi with ⟨j, hj, rfl⟩
      omega
    split_ifs at hxi
    obtain rfl : lowAt series i = x := Option.some.inj hxi
    rw [lowAt, List.getD_eq_getElem _ _ hilen]
    exact hpos _ (List.getElem_mem hilen)
  · simp at hx

theorem sortedCandidates_pos {cands : List ℚ} (h : ∀ x ∈ cands, 0 < x) :
    ∀ x ∈ sortedCandidates cands, 0 < x := fun x hx =>
  h x ((List.perm_insertionSort _ _).mem_iff.mp hx)

theorem clusterLevels_strength_pos (cands : List ℚ) :
    ∀ p ∈ clusterLevels cands, 0 < p.2 := fun p hp =>
  clusterAux_strength_pos _ _ p hp

theorem clusterLevels_means_pairwise {cands : List ℚ} (h : ∀ x ∈ cands, 0 < x) :
    (clusterLevels cands).Pairwise fun p q => p.1 < q.1 :=
  clusterAux_means_pairwise _ _ (sortedCandidates_pos h)

theorem detect_levels_means_pairwise {series : List PricePoint}
    (hpos : ∀ pt ∈ series, 0 < pt.low) :
    (detect_levels series).Pairwise fun p q => p.1 < q.1 :=
  clusterLevels_means_pairwise (fractalCandidates_pos hpos)

/-! ### Auxiliary transfer lemmas -/

theorem pairwise_enum_of_pairwise {α : Type} {R : α → α → Prop} {l : List α}
    (h : l.Pairwise R) : l.enum.Pairwise fun p q => R p.2 q.2 := by
  rw [← List.enum_map_snd l] at h
  exact List.pairwise_map.mp h

theorem mapM_eq_map_some {α β : Type} (f : α → Option β) (g : α → β) :
    ∀ l : List α, (∀ a ∈ l, f a = some (g a)) → l.mapM f = some (l.map g) := by
  intro l
  induction l with
  | nil => intro _; rfl
  | cons a t ih =>
    intro h
    rw [List.mapM_cons, h a (List.mem_cons_self _ _),
      ih fun b hb => h b (List.mem_cons_of_mem _ hb)]
    rfl

theorem abs_sum_pyRound_sub (es : List ℚ) :
    |(((es.map pyRound).sum : ℤ) : ℚ) - es.sum| ≤ (es.length : ℚ) / 2 := by
  induction es with
  | nil => simp
  | cons e t ih =>
    have h1 := abs_pyRound_sub_le e
    simp only [List.map_cons, List.sum_cons, List.length_cons]
    have hsplit : (((pyRound e + (t.map pyRound).sum : ℤ) : ℚ)) - (e + t.sum) =
        ((pyRound e : ℚ) - e) + ((((t.map pyRound).sum : ℤ) : ℚ) - t.sum) := by
      push_cast
      ring
    rw [hsplit]
    calc |((pyRound e : ℚ) - e) + ((((t.map pyRound).sum : ℤ) : ℚ) - t.sum)|
        ≤ |(pyRound e : ℚ) - e| + |(((t.map pyRound).sum : ℤ) : ℚ) - t.sum| := abs_add _ _
      _ ≤ 1 / 2 + (t.length : ℚ) / 2 := add_le_add h1 ih
      _ = (((t.length + 1 : ℕ) : ℚ)) / 2 := by push_cast; ring

/-! ### Emptiness of the selection stages -/

theorem sortedWaiting_nil_iff (levels : List (ℚ × ℕ)) (cur : ℚ) :
    sortedWaiting levels cur = [] ↔ waiting levels cur = [] := by
  constructor
  · intro h
    have hp := List.perm_insertionSort (fun a b : ℚ × ℕ => b.1 ≤ a.1) (waiting levels cur)
    rw [sortedWaiting] at h
    rw [h] at hp
    exact (hp.symm).eq_nil
  · intro h
    rw [sortedWaiting, h]
    rfl

theorem waiting_nil_iff (levels : List (ℚ × ℕ)) (cur : ℚ) :
    waiting levels cur = [] ↔ ∀ l ∈ levels, ¬l.1 < cur := by
  rw [waiting, List.filter_eq_nil_iff]
  simp

theorem top_3_nil_iff (levels : List (ℚ × ℕ)) (cur : ℚ) :
    top_3 levels cur = [] ↔ ∀ l ∈ levels, ¬l.1 < cur := by
  rw [top_3, List.take_eq_nil_iff, ← waiting_nil_iff levels cur, ← sortedWaiting_nil_iff]
  constructor
  · rintro (h | h)
    · omega
    · exact h
  · intro h
    exact Or.inr h

theorem build_plan_snd_nil_iff (levels : List (ℚ × ℕ)) (cur yh : ℚ) :
    (build_plan levels cur yh).2 = [] ↔ top_3 levels cur = [] := by
  rcases eq_or_ne (top_3 levels cur) [] with h | h
  · rw [build_plan_of_empty h]
    simp [h]
  · rw [build_plan_of_found h]
    simp [h]

theorem top_3_total_pos {levels : List (ℚ × ℕ)} {cur : ℚ}
    (hs : ∀ l ∈ levels, 0 < l.2) (h : top_3 levels cur ≠ []) :
    0 < ((top_3 levels cur).map Prod.snd).sum := by
  refine List.sum_pos _ ?_ ?_
  · intro x hx
    obtain ⟨pc, hpc, rfl⟩ := List.mem_map.mp hx
    exact hs pc (mem_top_3 hpc).1
  · intro hmap
    exact h (by simpa using hmap)

/-! ### Claim theorems -/

/-- Claim C1: for every price series of length > 5, the fractal scan marks
`series[i].low` as a candidate local minimum exactly for the indices `i`
in `[2, len-3]` (inclusive, zero-based) whose low is strictly less than
the lows at `i-2, i-1, i+1, i+2`; a low equal to any of those four
neighbors never qualifies, since the comparison is strict. -/
theorem fractal_scan_matches_spec (s : List PricePoint) (h : 5 < s.length) :
    fractalCandidates s = specFractalCandidates s :=
  fractalCandidates_eq_spec s h

theorem fractal_scan_matches_spec_witness :
    5 < wSeries.length ∧ fractalCandidates wSeries = specFractalCandidates wSeries :=
  ⟨by decide, fractal_scan_matches_spec wSeries (by decide)⟩

/-- Claim C2: clustering sorts the candidates ascending and greedily
consumes them.  The emitted `(average_price, strength)` pairs are exactly
the means and sizes of the greedy groups; the groups partition the
candidate multiset; every group starts with its anchor, which is its
smallest member, and the rest of the group lies within `anchor * 1.05`;
for any two members `a < b` of one group, `b ≤ anchor * 1.05`; and every
member of a later group lies strictly above an earlier group's
`anchor * 1.05` (so a group absorbs exactly the remaining candidates
within tolerance). -/
theorem clustering_greedy_partition (cands : List ℚ) :
    clusterLevels cands =
      ((clustersOf (sortedCandidates cands)).map
        fun g => (g.sum / (g.length : ℚ), g.length)) ∧
    (clustersOf (sortedCandidates cands)).flatten.Perm cands ∧
    (∀ g ∈ clustersOf (sortedCandidates cands),
      ∃ a t, g = a :: t ∧ (∀ x ∈ g, a ≤ x) ∧ ∀ x ∈ t, x ≤ a * 1.05) ∧
    (∀ g ∈ clustersOf (sortedCandidates cands),
      ∀ a ∈ g, ∀ b ∈ g, a < b → b ≤ g.headD 0 * 1.05) ∧
    (clustersOf (sortedCandidates cands)).Pairwise
      fun g1 g2 => ∀ x ∈ g2, g1.headD 0 * 1.05 < x := by
  refine ⟨clusterSorted_eq_map _,
    (clustersOf_flatten_perm _).trans (List.perm_insertionSort _ _), ?_, ?_,
    clustersAux_separated _ _⟩
  · intro g hg
    obtain ⟨a, t, rfl, ht⟩ := clustersAux_shape _ _ g hg
    refine ⟨a, t, rfl, fun x hx => ?_, ht⟩
    have := clustersAux_anchor_min _ _ (sortedCandidates_sorted cands) _ hg x hx
    simpa using this
  · intro g hg a ha b hb hab
    obtain ⟨c, t, rfl, ht⟩ := clustersAux_shape _ _ g hg
    have hca : c ≤ a := by
      have := clustersAux_anchor_min _ _ (sortedCandidates_sorted cands) _ hg a ha
      simpa using this
    have hbt : b ∈ t := by
      rcases List.mem_cons.mp hb with rfl | hbt
      · exact absurd hab (not_lt.mpr hca)
      · exact hbt
    simpa using ht b hbt

/-- Claim C5: a series of length at most 5 yields no fractal candidates
and no support levels; the detector never fails on such input. -/
theorem short_series_empty (series : List PricePoint) (h : series.length ≤ 5) :
    fractalCandidates series = [] ∧ detect_levels series = [] := by
  have h1 : fractalCandidates series = [] := by
    unfold fractalCandidates
    rw [if_neg (by omega)]
  refine ⟨h1, ?_⟩
  unfold detect_levels
  rw [h1]
  rfl

theorem short_series_empty_witness :
    shortSeries.length ≤ 5 ∧ fractalCandidates shortSeries = [] ∧
      detect_levels shortSeries = [] :=
  ⟨by decide, short_series_empty shortSeries (by decide)⟩

/-- Claim C9: on positive candidate prices (the spec's well-formed input
domain) the clustering stage emits its `SupportLevel`s in strictly
increasing order of `average_price`, so any two distinct clusters have
distinct means; this is what makes the plan builder's descending sort
strict on the underlying means. -/
theorem cluster_means_strictly_increasing (cands : List ℚ)
    (h : ∀ x ∈ cands, 0 < x) :
    (clusterLevels cands).Pairwise fun p q => p.1 < q.1 :=
  clusterLevels_means_pairwise h

theorem cluster_means_strictly_increasing_witness :
    (∀ x ∈ [(2 : ℚ)/5, 21/50, 1], 0 < x) ∧
    (clusterLevels [(2 : ℚ)/5, 21/50, 1]).Pairwise (fun p q => p.1 < q.1) :=
  ⟨by decide, cluster_means_strictly_increasing _ (by decide)⟩

/-- Claim C10: the pipeline of detector and plan builder is a pure
function of its inputs: two runs on identical series, current price and
52-week high produce identical support levels and identical plans. -/
theorem pipeline_deterministic (s1 s2 : List PricePoint) (c1 c2 y1 y2 : ℚ)
    (hs : s1 = s2) (hc : c1 = c2) (hy : y1 = y2) :
    detect_levels s1 = detect_levels s2 ∧ runAnalysis s1 c1 y1 = runAnalysis s2 c2 y2 := by
  subst hs
  subst hc
  subst hy
  exact ⟨rfl, rfl⟩

theorem pipeline_deterministic_witness :
    detect_levels wSeries = detect_levels wSeries ∧
      runAnalysis wSeries 100 20 = runAnalysis wSeries 100 20 :=
  pipeline_deterministic wSeries wSeries 100 100 20 20 rfl rfl rfl

/-- Claim C7: the plan is empty exactly when no detected level has
`average_price` below the current price; in that case the status is the
no-level message and the checked (fault-aware) builder still succeeds, a
valid terminal outcome rather than an error; otherwise the status is the
found message. -/
theorem status_dichotomy (levels : List (ℚ × ℕ)) (cur yh : ℚ) :
    ((build_plan levels cur yh).2 = [] ↔ ∀ l ∈ levels, ¬l.1 < cur) ∧
    ((build_plan levels cur yh).1 = STATUS_NOT_FOUND ↔
      (build_plan levels cur yh).2 = []) ∧
    ((build_plan levels cur yh).1 = STATUS_FOUND ↔
      (build_plan levels cur yh).2 ≠ []) ∧
    ((build_plan levels cur yh).2 = [] →
      build_planE levels cur yh = some (build_plan levels cur yh)) := by
  have hstr : STATUS_NOT_FOUND ≠ STATUS_FOUND := by decide
  have hiff := build_plan_snd_nil_iff levels cur yh
  refine ⟨hiff.trans (top_3_nil_iff levels cur), ?_, ?_, ?_⟩ <;>
    rcases eq_or_ne (top_3 levels cur) [] with h | h
  · rw [build_plan_of_empty h]
    simp
  · rw [build_plan_of_found h]
    exact iff_of_false (fun heq => hstr heq.symm) (by simp [h])
  · rw [build_plan_of_empty h]
    exact iff_of_false hstr (by simp)
  · rw [build_plan_of_found h]
    exact iff_of_true rfl (by simp [h])
  · intro _
    rw [build_plan_of_empty h]
    unfold build_planE
    simp [h]
  · intro hnil
    exact absurd (hiff.mp hnil) h

/-! ### The checked plan builder agrees with the plain one -/

theorem mkBuyLevelE_eq_some {yh cur : ℚ} {T : ℕ} (hT : T ≠ 0) (hy : yh ≠ 0)
    (hc : cur ≠ 0) (i : ℕ) (pc : ℚ × ℕ) :
    mkBuyLevelE yh cur T i pc = some (mkBuyLevel yh cur T i pc) := by
  have hTq : ((T : ℕ) : ℚ) ≠ 0 := Nat.cast_ne_zero.mpr hT
  unfold mkBuyLevelE mkBuyLevel divE
  simp [hTq, hy, hc]

/-- Claim C8: the divisions by `year_high` and `current_price` are
unguarded.  Under the precondition that both are positive, the checked
(fault-aware) builder never faults and agrees with the plain builder on
the detector's output; with `year_high = 0` and a level below the current
price, the checked builder faults (an uncaught `ZeroDivisionError`). -/
theorem unguarded_divisions (series : List PricePoint) (cur yh : ℚ)
    (hc : 0 < cur) (hy : 0 < yh) :
    build_planE (detect_levels series) cur yh =
      some (build_plan (detect_levels series) cur yh) ∧
    build_planE [((1 : ℚ)/2, 1)] 1 0 = none := by
  refine ⟨?_, by decide⟩
  rcases eq_or_ne (top_3 (detect_levels series) cur) [] with h | h
  · rw [build_plan_of_empty h]
    unfold build_planE
    simp [h]
  · rw [build_plan_of_found h]
    unfold build_planE
    rw [if_neg (by simpa using h)]
    have hT : ((top_3 (detect_levels series) cur).map Prod.snd).sum ≠ 0 :=
      Nat.pos_iff_ne_zero.mp
        (top_3_total_pos (fun l hl => clusterLevels_strength_pos _ l hl) h)
    rw [mapM_eq_map_some _ _ _ fun p _ =>
      mkBuyLevelE_eq_some hT hy.ne' hc.ne' p.1 p.2]
    rfl

theorem unguarded_divisions_witness :
    build_planE (detect_levels wSeries) 100 20 =
      some (build_plan (detect_levels wSeries) 100 20) ∧
    build_planE [((1 : ℚ)/2, 1)] 1 0 = none :=
  unguarded_divisions wSeries 100 20 (by norm_num) (by norm_num)

/-- Claim C3 (amended): the plan builder keeps exactly the levels with
`average_price` strictly below the current price, ranks them by
`average_price` descending — strictly so on positive prices, regardless
of strength — and returns at most the first 3.  The returned entries are
ordered by descending `price` only non-strictly: the displayed price is
rounded to two decimals, and rounding can make adjacent entries equal. -/
theorem plan_selection_and_order (series : List PricePoint) (cur yh : ℚ)
    (hpos : ∀ pt ∈ series, 0 < pt.low) :
    (∀ l, l ∈ waiting (detect_levels series) cur ↔
      l ∈ detect_levels series ∧ l.1 < cur) ∧
    (sortedWaiting (detect_levels series) cur).Pairwise (fun p q => q.1 < p.1) ∧
    (build_plan (detect_levels series) cur yh).2.length ≤ 3 ∧
    (build_plan (detect_levels series) cur yh).2.Pairwise
      fun p q => q.price ≤ p.price := by
  have hsorted : (sortedWaiting (detect_levels series) cur).Pairwise
      fun p q => q.1 < p.1 := by
    have h1 := sortedWaiting_sorted (detect_levels series) cur
    have h2 : (waiting (detect_levels series) cur).Pairwise
        fun p q : ℚ × ℕ => p.1 ≠ q.1 :=
      ((detect_levels_means_pairwise hpos).sublist
        (List.filter_sublist _)).imp fun h => ne_of_lt h
    have h3 : (sortedWaiting (detect_levels series) cur).Pairwise
        fun p q : ℚ × ℕ => p.1 ≠ q.1 :=
      ((List.perm_insertionSort _ _).pairwise_iff fun h => h.symm).mpr h2
    exact (h1.and h3).imp fun h => lt_of_le_of_ne h.1 h.2.symm
  refine ⟨?_, hsorted, ?_, ?_⟩
  · intro l
    rw [waiting, List.mem_filter]
    simp
  · rw [plan_length, top_3, List.length_take]
    omega
  · have ht3 : (top_3 (detect_levels series) cur).Pairwise
        fun p q => q.1 < p.1 := hsorted.sublist (List.take_sublist _ _)
    rcases eq_or_ne (top_3 (detect_levels series) cur) [] with h | h
    · rw [build_plan_of_empty h]
      exact List.Pairwise.nil
    · rw [build_plan_of_found h]
      rw [List.pairwise_map]
      exact (pairwise_enum_of_pairwise ht3).imp fun hlt => round2_mono (le_of_lt hlt)

theorem plan_selection_and_order_witness :
    (∀ pt ∈ wSeries, 0 < pt.low) ∧
    (build_plan (detect_levels wSeries) 100 20).2.length ≤ 3 :=
  ⟨by decide, (plan_selection_and_order wSeries 100 20 (by decide)).2.2.1⟩

/-- Claim C3's counterexample: on `exSeries`, with current price and year
high 1, the two selected levels have distinct means 53/125 and 52/125 but
both display as price 21/50 after rounding to two decimals, so the
returned entries are not strictly ordered by descending price. -/
theorem plan_rounded_price_order_counterexample :
    ((build_plan (detect_levels exSeries) 1 1).2.map fun b => b.price) =
      [21/50, 21/50] ∧
    ¬ (build_plan (detect_levels exSeries) 1 1).2.Pairwise
      (fun p q => q.price < p.price) := by
  decide

theorem map_congr_mem {α β : Type} (f g : α → β) :
    ∀ l : List α, (∀ a ∈ l, f a = g a) → l.map f = l.map g := by
  intro l
  induction l with
  | nil => intro _; rfl
  | cons a t ih =>
    intro h
    rw [List.map_cons, List.map_cons, h a (List.mem_cons_self _ _),
      ih fun b hb => h b (List.mem_cons_of_mem _ hb)]

/-- Claim C4: in a non-empty plan each entry's `weight_percent` is
`round(strength / total * 100)` over the selected levels' total strength;
all weights are non-negative integers; and their sum differs from 100 by
at most `count - 1` entries of rounding error. -/
theorem plan_weight_percent_bounds (levels : List (ℚ × ℕ)) (cur yh : ℚ)
    (hs : ∀ l ∈ levels, 0 < l.2) (hne : (build_plan levels cur yh).2 ≠ []) :
    ((build_plan levels cur yh).2.map fun b => b.weight_percent) =
      ((top_3 levels cur).map fun pc =>
        pyRound ((pc.2 : ℚ) / ((((top_3 levels cur).map Prod.snd).sum : ℕ) : ℚ) * 100)) ∧
    (∀ b ∈ (build_plan levels cur yh).2, 0 ≤ b.weight_percent) ∧
    |(((build_plan levels cur yh).2.map fun b => b.weight_percent).sum) - 100| ≤
      ((build_plan levels cur yh).2.length : ℤ) - 1 := by
  have h3 : top_3 levels cur ≠ [] :=
    fun h0 => hne ((build_plan_snd_nil_iff levels cur yh).mpr h0)
  have hTpos : 0 < ((top_3 levels cur).map Prod.snd).sum := top_3_total_pos hs h3
  have hT0 : ((((top_3 levels cur).map Prod.snd).sum : ℕ) : ℚ) ≠ 0 :=
    Nat.cast_ne_zero.mpr (Nat.pos_iff_ne_zero.mp hTpos)
  have hplan : (build_plan levels cur yh).2 =
      (top_3 levels cur).enum.map fun p =>
        mkBuyLevel yh cur (((top_3 levels cur).map Prod.snd).sum) p.1 p.2 := by
    rw [build_plan_of_found h3]
  have hmapw : ((build_plan levels cur yh).2.map fun b => b.weight_percent) =
      (top_3 levels cur).map fun pc =>
        pyRound ((pc.2 : ℚ) / ((((top_3 levels cur).map Prod.snd).sum : ℕ) : ℚ) * 100) := by
    rw [hplan, List.map_map]
    rw [show ((fun b : BuyLevel => b.weight_percent) ∘ fun p : ℕ × (ℚ × ℕ) =>
        mkBuyLevel yh cur (((top_3 levels cur).map Prod.snd).sum) p.1 p.2) =
        ((fun pc : ℚ × ℕ => pyRound ((pc.2 : ℚ) /
          ((((top_3 levels cur).map Prod.snd).sum : ℕ) : ℚ) * 100)) ∘ Prod.snd) from rfl]
    rw [← List.map_map, List.enum_map_snd]
  refine ⟨hmapw, ?_, ?_⟩
  · intro b hb
    rw [hplan] at hb
    obtain ⟨p, hp, rfl⟩ := List.mem_map.mp hb
    refine pyRound_nonneg _ ?_
    positivity
  · have hes : ((top_3 levels cur).map fun pc =>
        (pc.2 : ℚ) / ((((top_3 levels cur).map Prod.snd).sum : ℕ) : ℚ) * 100).sum = 100 := by
      rw [map_congr_mem _ (fun pc : ℚ × ℕ => (pc.2 : ℚ) *
          (100 / ((((top_3 levels cur).map Prod.snd).sum : ℕ) : ℚ))) _
          fun pc _ => by ring]
      rw [List.sum_map_mul_right]
      rw [show ((top_3 levels cur).map fun pc : ℚ × ℕ => ((pc.2 : ℕ) : ℚ)).sum =
          ((((top_3 levels cur).map Prod.snd).sum : ℕ) : ℚ) from by
        rw [Nat.cast_list_sum, List.map_map]; rfl]
      rw [mul_comm, div_mul_cancel₀ _ hT0]
    have habs := abs_sum_pyRound_sub ((top_3 levels cur).map fun pc =>
        (pc.2 : ℚ) / ((((top_3 levels cur).map Prod.snd).sum : ℕ) : ℚ) * 100)
    rw [hes, List.map_map, List.length_map] at habs
    rw [hmapw, plan_length]
    rcases Nat.lt_or_ge (top_3 levels cur).length 2 with hlen | hlen
    · have hlen1 : (top_3 levels cur).length = 1 := by
        have := List.length_pos.mpr h3
        omega
      obtain ⟨pc, hpc⟩ := List.length_eq_one.mp hlen1
      have hpc2 : (pc.2 : ℚ) ≠ 0 := by
        have := hs pc (mem_top_3 (hpc ▸ List.mem_singleton_self pc)).1
        positivity
      rw [hpc]
      simp only [List.map_cons, List.map_nil, List.sum_cons, List.sum_nil, add_zero,
        List.length_cons, List.length_nil]
      rw [div_self hpc2, one_mul]
      rw [show pyRound (100 : ℚ) = 100 from by decide]
      simp
    · have hlenq : (2 : ℚ) ≤ ((top_3 levels cur).length : ℚ) := by exact_mod_cast hlen
      have hhalf : (((top_3 levels cur).length : ℚ)) / 2 ≤
          ((top_3 levels cur).length : ℚ) - 1 := by linarith
      have hq := le_trans habs hhalf
      simp only [Function.comp_def] at hq
      exact_mod_cast hq

theorem plan_weight_percent_bounds_witness :
    (∀ l ∈ [((90 : ℚ), 3), (70, 1), (95, 2)], 0 < l.2) ∧
    (build_plan [((90 : ℚ), 3), (70, 1), (95, 2)] 100 100).2 ≠ [] ∧
    |(((build_plan [((90 : ℚ), 3), (70, 1), (95, 2)] 100 100).2.map
        fun b => b.weight_percent).sum) - 100| ≤
      ((build_plan [((90 : ℚ), 3), (70, 1), (95, 2)] 100 100).2.length : ℤ) - 1 :=
  ⟨by decide, by decide,
    (plan_weight_percent_bounds [((90 : ℚ), 3), (70, 1), (95, 2)] 100 100
      (by decide) (by decide)).2.2⟩

/-- Claim C6: every returned entry carries
`discount_from_high_pct = round(((year_high - price) / year_high) * 100, 2)`,
`gap_from_current_pct = round(((current_price - price) / current_price) * 100, 2)`
(both computed from the level's raw average price), a `price` equal to the
average price rounded to two decimals, and a 1-based rank. -/
theorem buylevel_percentage_formulas (levels : List (ℚ × ℕ)) (cur yh : ℚ) (i : ℕ)
    (h : i < (build_plan levels cur yh).2.length) :
    ((build_plan levels cur yh).2.getD i ⟨0, 0, 0, 0, 0⟩).order = i + 1 ∧
    ((build_plan levels cur yh).2.getD i ⟨0, 0, 0, 0, 0⟩).price =
      round2 ((top_3 levels cur).getD i (0, 0)).1 ∧
    ((build_plan levels cur yh).2.getD i ⟨0, 0, 0, 0, 0⟩).discount_from_high_pct =
      round2 ((yh - ((top_3 levels cur).getD i (0, 0)).1) / yh * 100) ∧
    ((build_plan levels cur yh).2.getD i ⟨0, 0, 0, 0, 0⟩).gap_from_current_pct =
      round2 ((cur - ((top_3 levels cur).getD i (0, 0)).1) / cur * 100) := by
  rw [plan_length] at h
  have hne : top_3 levels cur ≠ [] := by
    intro h0
    rw [h0] at h
    simp at h
  have hplan : (build_plan levels cur yh).2 =
      (top_3 levels cur).enum.map fun p =>
        mkBuyLevel yh cur (((top_3 levels cur).map Prod.snd).sum) p.1 p.2 := by
    rw [build_plan_of_found hne]
  have hmaplen : i < (((top_3 levels cur).enum.map fun p =>
      mkBuyLevel yh cur (((top_3 levels cur).map Prod.snd).sum) p.1 p.2)).length := by
    simpa [List.enum_length] using h
  rw [hplan, List.getD_eq_getElem _ _ hmaplen, List.getD_eq_getElem _ _ h,
    List.getElem_map, List.getElem_enum]
  exact ⟨rfl, rfl, rfl, rfl⟩

theorem buylevel_percentage_formulas_witness :
    0 < (build_plan [((1 : ℚ), 1)] 2 3).2.length ∧
    ((build_plan [((1 : ℚ), 1)] 2 3).2.getD 0 ⟨0, 0, 0, 0, 0⟩).price =
      round2 ((top_3 [((1 : ℚ), 1)] 2).getD 0 (0, 0)).1 :=
  ⟨by decide, (buylevel_percentage_formulas [((1 : ℚ), 1)] 2 3 0 (by decide)).2.1⟩
